import Mathlib

/-!
Verification development for the deck-maker-k deck-composition engine
(`src/App.vue`).  JavaScript strings are modelled as `List Char`, the
reactive deck state as a `List DeckItem`, and each store operation as a
pure function returning the new state (paired with a `Bool` flag where
the source raises a user-visible alert).
-/

namespace DeckMaker

/-- JavaScript strings, modelled as lists of characters. -/
abbrev Str := List Char

/-- The `type` field of a card: in the source it is `undefined`, a single
string, or an array of strings (`Array.isArray(card.type) ? card.type :
[card.type]`). -/
inductive CType where
  | undef : CType
  | one : Str → CType
  | many : List Str → CType
deriving DecidableEq, Repr

/-- A catalog card.  `tags` is `some l` when `Array.isArray(card.tags)`
holds in the source and `none` when the field is missing or not an
array. -/
structure Card where
  id : Str
  name : Str
  kind : Str
  type : CType
  tags : Option (List Str)
deriving DecidableEq, Repr

/-- One deck entry: `{ card: {...}, count: N }` in the source. -/
structure DeckItem where
  card : Card
  count : Nat
deriving DecidableEq, Repr

/-- `allKinds = ["Artist", "Song", "Magic", "Direction"]`. -/
def allKinds : List Str :=
  ["Artist".toList, "Song".toList, "Magic".toList, "Direction".toList]

/-- `allTypes = ["赤","青","黄","白","黒","全","即時","装備","設置"]`. -/
def allTypes : List Str :=
  ["赤".toList, "青".toList, "黄".toList, "白".toList, "黒".toList,
   "全".toList, "即時".toList, "装備".toList, "設置".toList]

/-- `totalDeckCards`: `deckCards.reduce((sum, item) => sum + item.count, 0)`. -/
def totalDeckCards (d : List DeckItem) : Nat :=
  d.foldl (fun sum item => sum + item.count) 0

/-- Replace the count of the first entry whose card id matches (the source
finds the entry with `findIndex`/`find` and mutates its `count` in place). -/
def updateFirst : List DeckItem → Str → Nat → List DeckItem
  | [], _, _ => []
  | item :: rest, cardId, n =>
    if item.card.id = cardId then ⟨item.card, n⟩ :: rest
    else item :: updateFirst rest cardId n

/-- `addCardToDeck(card)`.  The `Bool` is `true` when the source alerts
"デッキは60枚までです！" (capacity error); in every other branch the call
returns normally. -/
def addCardToDeck (d : List DeckItem) (card : Card) : List DeckItem × Bool :=
  if 60 ≤ totalDeckCards d then (d, true)
  else
    match d.find? (fun item => item.card.id = card.id) with
    | some item =>
      if item.count < 4 then (updateFirst d card.id (item.count + 1), false)
      else (d, false)
    | none => (d ++ [⟨card, 1⟩], false)

/-- `incrementCardCount(cardId)`.  The `Bool` is the capacity alert. -/
def incrementCardCount (d : List DeckItem) (cardId : Str) : List DeckItem × Bool :=
  if 60 ≤ totalDeckCards d then (d, true)
  else
    match d.find? (fun item => item.card.id = cardId) with
    | some item =>
      if item.count < 4 then (updateFirst d cardId (item.count + 1), false)
      else (d, false)
    | none => (d, false)

/-- `removeCardFromDeck(cardId)`: filter out every entry with that id. -/
def removeCardFromDeck (d : List DeckItem) (cardId : Str) : List DeckItem :=
  d.filter (fun item => ¬ (item.card.id = cardId))

/-- `decrementCardCount(cardId)`. -/
def decrementCardCount (d : List DeckItem) (cardId : Str) : List DeckItem :=
  match d.find? (fun item => item.card.id = cardId) with
  | some item =>
    if 1 < item.count then updateFirst d cardId (item.count - 1)
    else if item.count = 1 then removeCardFromDeck d cardId
    else d
  | none => d

/-- `resetDeck()`: clears the deck when the user confirms the dialog,
otherwise leaves it unchanged. -/
def resetDeck (d : List DeckItem) (confirm : Bool) : List DeckItem :=
  if confirm then [] else d

/-- One user action on the deck store. -/
inductive Op where
  | add : Card → Op
  | inc : Str → Op
  | dec : Str → Op
  | remove : Str → Op
  | reset : Bool → Op

/-- Apply one store operation to the deck state (the alert flag does not
touch the deck). -/
def stepDeck (d : List DeckItem) (op : Op) : List DeckItem :=
  match op with
  | .add c => (addCardToDeck d c).1
  | .inc id => (incrementCardCount d id).1
  | .dec id => decrementCardCount d id
  | .remove id => removeCardFromDeck d id
  | .reset confirm => resetDeck d confirm

/-- The deck invariants: total at most 60, every count in `[1,4]`
(hence no zero-count entries), and at most one entry per card id. -/
def DeckInv (d : List DeckItem) : Prop :=
  totalDeckCards d ≤ 60 ∧
  (∀ item ∈ d, 1 ≤ item.count ∧ item.count ≤ 4) ∧
  (d.map (fun item => item.card.id)).Nodup

instance (d : List DeckItem) : Decidable (DeckInv d) := by
  unfold DeckInv; infer_instance

/-! ### Deck code codec -/

/-- JavaScript `code.split(sep)` for a single-character separator:
`"".split('/')` is `[""]`, and separators produce empty fields. -/
def splitOnChar (sep : Char) : Str → List Str
  | [] => [[]]
  | c :: rest =>
    match splitOnChar sep rest with
    | [] => [[]]
    | t :: ts => if c = sep then [] :: t :: ts else (c :: t) :: ts

/-- JavaScript `array.join(sep)` for a single-character separator. -/
def joinSep (sep : Char) : List Str → Str
  | [] => []
  | [x] => x
  | x :: y :: rest => x ++ sep :: joinSep sep (y :: rest)

/-- One step of `cardCounts.set(id, (cardCounts.get(id) || 0) + 1)` on a
JavaScript `Map`, which keeps keys in first-insertion order. -/
def bump : List (Str × Nat) → Str → List (Str × Nat)
  | [], id => [(id, 1)]
  | (k, v) :: rest, id => if k = id then (k, v + 1) :: rest else (k, v) :: bump rest id

/-- The occurrence-count `Map` built by `decodeDeckCode`, as an
association list in first-occurrence order. -/
def countOccur (ids : List Str) : List (Str × Nat) := ids.foldl bump []

/-- `encodeDeckCode(deck)`: repeat each entry's id `count` times and join
with `'/'`. -/
def encodeDeckCode (deck : List DeckItem) : Str :=
  joinSep '/' (deck.flatMap (fun item => List.replicate item.count item.card.id))

/-- `decodeDeckCode(code)`: split on `'/'`, count occurrences per id, and
keep one entry per distinct id that is found in the catalog
(`availableCards`). -/
def decodeDeckCode (catalog : List Card) (code : Str) : List DeckItem :=
  (countOccur (splitOnChar '/' code)).filterMap (fun p =>
    match catalog.find? (fun c => decide (c.id = p.1)) with
    | some card => some ⟨card, p.2⟩
    | none => none)

/-- `importDeckFromCode()`: replace the deck by the decoded entries when
there is at least one, otherwise alert ("有効なカードが見つかりませんでした")
and leave the deck unchanged.  The `Bool` is the import-failure alert. -/
def importDeckFromCode (catalog : List Card) (deck : List DeckItem) (code : Str) :
    List DeckItem × Bool :=
  let importedCards := decodeDeckCode catalog code
  if 0 < importedCards.length then (importedCards, false) else (deck, true)

/-! ### Ordering engine -/

/-- `/\d/` for a single character. -/
def isDigitChar (c : Char) : Bool := '0' ≤ c && c ≤ '9'

/-- Value of a digit string (what `parseInt` returns on an all-digit
token). -/
def digitsToNat (t : Str) : Nat := t.foldl (fun n c => n * 10 + (c.toNat - 48)) 0

/-- `parseInt(token, 10)` restricted to the tokens the regex
`/(\d+)|(\D+)/g` produces: a digit-leading token parses to its leading
digit run, everything else is `NaN` (`none`). -/
def parseIntOpt (t : Str) : Option Nat :=
  match t with
  | [] => none
  | c :: _ => if isDigitChar c then some (digitsToNat (t.takeWhile isDigitChar)) else none

/-- `token.charCodeAt(0) >= 65 && token.charCodeAt(0) <= 90`; for the
empty string `charCodeAt(0)` is `NaN` and both comparisons are false. -/
def isUpperFirst (t : Str) : Bool :=
  match t with
  | [] => false
  | c :: _ => 65 ≤ c.toNat && c.toNat ≤ 90

/-- `a.localeCompare(b)` modelled as ordinal (code-point) comparison;
the host-locale collation is outside the model, and the spec reads the
call as "ordinary lexical order". -/
def lexCompare : Str → Str → Int
  | [], [] => 0
  | [], _ :: _ => -1
  | _ :: _, [] => 1
  | a :: as, b :: bs =>
    if a.toNat < b.toNat then -1
    else if b.toNat < a.toNat then 1
    else lexCompare as bs

/-- One step of run-splitting: prepend `c` to the first run when it has
the same digit/non-digit class, otherwise start a new run. -/
def tokStep (c : Char) (acc : List Str) : List Str :=
  match acc with
  | [] => [[c]]
  | t :: ts =>
    match t with
    | [] => [c] :: ts
    | d :: _ => if isDigitChar c == isDigitChar d then (c :: t) :: ts else [c] :: t :: ts

/-- `id.match(/(\d+)|(\D+)/g)` on a nonempty string: the alternating
maximal runs of digits and non-digits. -/
def tokenize (s : Str) : List Str := s.foldr tokStep []

/-- `id.match(/(\d+)|(\D+)/g)` in full: `null` (here `none`) exactly on
the empty string. -/
def matchTokens (s : Str) : Option (List Str) :=
  if s = [] then none else some (tokenize s)

/-- The token-comparison loop of `naturalSort`, followed by the final
`tokensA.length - tokensB.length`. -/
def natCompareTokens : List Str → List Str → Int
  | a :: ta, b :: tb =>
    match parseIntOpt a, parseIntOpt b with
    | some na, some nb =>
      if na ≠ nb then (na : Int) - (nb : Int) else natCompareTokens ta tb
    | _, _ =>
      if isUpperFirst a ≠ isUpperFirst b then (if isUpperFirst a then -1 else 1)
      else if a ≠ b then lexCompare a b
      else natCompareTokens ta tb
  | ta, tb => (ta.length : Int) - (tb.length : Int)

/-- `naturalSort(a, b)`. -/
def naturalSort (a b : Str) : Int :=
  match matchTokens a, matchTokens b with
  | some ta, some tb => natCompareTokens ta tb
  | _, _ => lexCompare a b

/-- JavaScript `array.indexOf(x)`: index of the first occurrence, `-1`
when absent. -/
def jsIndexOf (l : List Str) (x : Str) : Int :=
  match l.findIdx? (fun y => decide (y = x)) with
  | some i => (i : Int)
  | none => -1

/-- `kindSort(a, b) = allKinds.indexOf(a.kind) - allKinds.indexOf(b.kind)`. -/
def kindSort (a b : Card) : Int :=
  jsIndexOf allKinds a.kind - jsIndexOf allKinds b.kind

/-- The loop body of `getEarliestTypeIndex`: keep the smaller of the
running minimum and this type's `allTypes` index (`indexOf` returning
`-1`, i.e. `none`, leaves the minimum unchanged). -/
def typeMinStep (minIndex : Nat) (t : Str) : Nat :=
  match allTypes.findIdx? (fun y => decide (y = t)) with
  | some i => if i < minIndex then i else minIndex
  | none => minIndex

/-- `getEarliestTypeIndex(cardTypes)` inside `typeSort`: `order.length`
when the field is falsy (`undefined` or `""`), otherwise the smallest
`allTypes` index among the card's types, `order.length` when none is
found. -/
def getEarliestTypeIndex (ct : CType) : Nat :=
  match ct with
  | .undef => allTypes.length
  | .one t =>
    if t = [] then allTypes.length
    else
      match allTypes.findIdx? (fun y => decide (y = t)) with
      | some i => if i < allTypes.length then i else allTypes.length
      | none => allTypes.length
  | .many ts => ts.foldl typeMinStep allTypes.length

/-- `typeSort(a, b)`. -/
def typeSort (a b : Card) : Int :=
  (getEarliestTypeIndex a.type : Int) - (getEarliestTypeIndex b.type : Int)

/-- The wrapper object `{ kind: card.kind }` built by `sortedDeckCards`
(all other fields `undefined`). -/
def kindOnly (k : Str) : Card := ⟨[], [], k, .undef, none⟩

/-- The wrapper object `{ type: card.type }` built by `sortedDeckCards`. -/
def typeOnly (t : CType) : Card := ⟨[], [], [], t, none⟩

/-- The comparator of `sortedAndFilteredAvailableCards`: kind, then type,
then natural id order. -/
def poolCmp (a b : Card) : Int :=
  let kindComparison := kindSort a b
  if kindComparison ≠ 0 then kindComparison
  else
    let typeComparison := typeSort a b
    if typeComparison ≠ 0 then typeComparison
    else naturalSort a.id b.id

/-- The comparator of `sortedDeckCards`, which wraps the card's `kind`
and `type` before calling the same sort functions. -/
def deckCmp (x y : DeckItem) : Int :=
  let kindComparison := kindSort (kindOnly x.card.kind) (kindOnly y.card.kind)
  if kindComparison ≠ 0 then kindComparison
  else
    let typeComparison := typeSort (typeOnly x.card.type) (typeOnly y.card.type)
    if typeComparison ≠ 0 then typeComparison
    else naturalSort x.card.id y.card.id

/-! ### Filter engine -/

/-- `filterCriteria`: the four filter fields. -/
structure FilterCriteria where
  text : Str
  kind : List Str
  type : List Str
  tags : List Str
deriving DecidableEq, Repr

/-- ASCII `toLowerCase` on one character (the catalog's ids and the
enumerations only use ASCII letters and BMP characters unaffected by
case mapping). -/
def toLowerChar (c : Char) : Char :=
  if 65 ≤ c.toNat ∧ c.toNat ≤ 90 then Char.ofNat (c.toNat + 32) else c

/-- `s.toLowerCase()`. -/
def toLower (s : Str) : Str := s.map toLowerChar

/-- JavaScript `hay.includes(needle)`: `needle` occurs contiguously in
`hay` (every string includes the empty string). -/
def containsSub : Str → Str → Bool
  | [], needle => needle.isEmpty
  | c :: rest, needle => needle.isPrefixOf (c :: rest) || containsSub rest needle

/-- `Array.isArray(card.type) ? card.type : [card.type]`, as the list of
string types visible to `typeSet.has`: `[undefined]` contributes no
member. -/
def cardTypesList : CType → List Str
  | .undef => []
  | .one t => [t]
  | .many ts => ts

/-- `filterCards(cards, criteria)`. -/
def filterCards (cards : List Card) (criteria : FilterCriteria) : List Card :=
  let textLower := toLower criteria.text
  cards.filter (fun card =>
    if !textLower.isEmpty &&
        !(containsSub (toLower card.name) textLower ||
          containsSub (toLower card.id) textLower ||
          (match card.tags with
           | some tags => tags.any (fun tag => containsSub (toLower tag) textLower)
           | none => false)) then false
    else if decide (0 < criteria.kind.length) && !(criteria.kind.contains card.kind) then
      false
    else if decide (0 < criteria.type.length) &&
        !((cardTypesList card.type).any (fun t => criteria.type.contains t)) then
      false
    else if decide (0 < criteria.tags.length) &&
        !(match card.tags with
          | some tags => tags.any (fun tag => criteria.tags.contains tag)
          | none => false) then
      false
    else true)

/-! ### Specification-side definitions

These follow the spec's words (not the source) and are compared with the
source translations above. -/

/-- The spec's filter contract `matches(card, criteria)`: AND across
categories, OR within a category. -/
def MatchesSpec (card : Card) (criteria : FilterCriteria) : Prop :=
  (criteria.text = [] ∨
    toLower criteria.text <:+: toLower card.name ∨
    toLower criteria.text <:+: toLower card.id ∨
    ∃ tag ∈ card.tags.getD [], toLower criteria.text <:+: toLower tag) ∧
  (criteria.kind = [] ∨ card.kind ∈ criteria.kind) ∧
  (criteria.type = [] ∨ ∃ t ∈ cardTypesList card.type, t ∈ criteria.type) ∧
  (criteria.tags = [] ∨ ∃ tag ∈ card.tags.getD [], tag ∈ criteria.tags)

/-- Collapse a comparator's integer result to its sign. -/
def ordOfInt (i : Int) : Ordering :=
  if i < 0 then .lt else if i = 0 then .eq else .gt

/-- A maximal run of digits. -/
def isDigitRun (t : Str) : Bool := !t.isEmpty && t.all isDigitChar

/-- A run whose leading character is an ASCII uppercase letter. -/
def isUpperLeading (t : Str) : Bool :=
  match t with
  | [] => false
  | c :: _ => 'A' ≤ c && c ≤ 'Z'

/-- A run whose leading character is an ASCII lowercase letter. -/
def isLowerLeading (t : Str) : Bool :=
  match t with
  | [] => false
  | c :: _ => 'a' ≤ c && c ≤ 'z'

/-- Ordinary lexical (code-point) order on strings, `Ordering`-valued. -/
def lexOrd : Str → Str → Ordering
  | [], [] => .eq
  | [], _ :: _ => .lt
  | _ :: _, [] => .gt
  | a :: as, b :: bs => (compare a.toNat b.toNat).then (lexOrd as bs)

/-- The claim's run comparison, read literally: digit runs numerically;
uppercase-letter-leading before lowercase-letter-leading regardless of
alphabetic value; otherwise ordinary lexical order. -/
def runCmpLit (a b : Str) : Ordering :=
  if isDigitRun a && isDigitRun b then compare (digitsToNat a) (digitsToNat b)
  else if isUpperLeading a && isLowerLeading b then .lt
  else if isLowerLeading a && isUpperLeading b then .gt
  else lexOrd a b

/-- The amended run comparison: uppercase-leading runs sort before runs
not leading with an uppercase letter (not just lowercase-leading ones). -/
def runCmpAmended (a b : Str) : Ordering :=
  if isDigitRun a && isDigitRun b then compare (digitsToNat a) (digitsToNat b)
  else if isUpperLeading a && !isUpperLeading b then .lt
  else if !isUpperLeading a && isUpperLeading b then .gt
  else lexOrd a b

/-- Pairwise comparison of token sequences; when one sequence is a strict
prefix of the other the shorter sorts first. -/
def runsCmpWith (f : Str → Str → Ordering) : List Str → List Str → Ordering
  | [], [] => .eq
  | [], _ :: _ => .lt
  | _ :: _, [] => .gt
  | a :: ta, b :: tb => (f a b).then (runsCmpWith f ta tb)

/-- The claim's description of `naturalSort`, read literally. -/
def specNaturalSortLit (a b : Str) : Ordering :=
  if a = [] ∨ b = [] then lexOrd a b
  else runsCmpWith runCmpLit (tokenize a) (tokenize b)

/-- The amended description of `naturalSort`. -/
def specNaturalSort (a b : Str) : Ordering :=
  if a = [] ∨ b = [] then lexOrd a b
  else runsCmpWith runCmpAmended (tokenize a) (tokenize b)

/-! ### Association-list helpers used to reason about the codec -/

/-- Keys of the occurrence map, in insertion order. -/
def keysOf (m : List (Str × Nat)) : List Str := m.map Prod.fst

/-- Value stored for a key (`0` when absent, like `get(id) || 0`). -/
def valOf : List (Str × Nat) → Str → Nat
  | [], _ => 0
  | (k, v) :: rest, id => if k = id then v else valOf rest id

/-- A sample card for concrete instantiations. -/
def sampleCard (id : Str) : Card :=
  ⟨id, id, "Song".toList, .one "赤".toList, some ["V.W.P".toList]⟩

/-! ### Helper lemmas -/

theorem findIdx?_some_lt {α : Type} {p : α → Bool} {xs : List α} {i : Nat}
    (h : List.findIdx? p xs = some i) : i < xs.length := by
  rw [List.findIdx?_eq_guard_findIdx_lt] at h
  simp only [Option.guard] at h
  split at h
  · cases h; assumption
  · cases h

theorem findIdx?_isSome_of_mem {l : List Str} {x : Str} (h : x ∈ l) :
    ∃ i, List.findIdx? (fun y => decide (y = x)) l = some i := by
  have hs : (List.findIdx? (fun y => decide (y = x)) l).isSome = true := by
    rw [List.findIdx?_isSome, List.any_eq_true]
    exact ⟨x, h, by simp⟩
  cases hfi : List.findIdx? (fun y => decide (y = x)) l with
  | some i => exact ⟨i, rfl⟩
  | none => rw [hfi] at hs; cases hs

theorem jsIndexOf_of_not_mem {l : List Str} {x : Str} (h : x ∉ l) :
    jsIndexOf l x = -1 := by
  unfold jsIndexOf
  have hn : List.findIdx? (fun y => decide (y = x)) l = none := by
    rw [List.findIdx?_eq_none_iff]
    intro y hy
    simp only [decide_eq_false_iff_not]
    rintro rfl
    exact h hy
  rw [hn]

theorem jsIndexOf_nonneg_of_mem {l : List Str} {x : Str} (h : x ∈ l) :
    0 ≤ jsIndexOf l x := by
  obtain ⟨i, hi⟩ := findIdx?_isSome_of_mem h
  unfold jsIndexOf
  rw [hi]
  exact Int.ofNat_nonneg i

theorem typeMinStep_le (m : Nat) (t : Str) : typeMinStep m t ≤ m := by
  unfold typeMinStep
  cases List.findIdx? (fun y => decide (y = t)) allTypes with
  | some i =>
    simp only
    split
    · omega
    · exact Nat.le_refl m
  | none => exact Nat.le_refl m

theorem typeFoldl_le_init (ts : List Str) (m : Nat) :
    ts.foldl typeMinStep m ≤ m := by
  induction ts generalizing m with
  | nil => exact Nat.le_refl m
  | cons t ts ih => exact Nat.le_trans (ih (typeMinStep m t)) (typeMinStep_le m t)

theorem typeFoldl_le_found {t : Str} {i : Nat}
    (hi : List.findIdx? (fun y => decide (y = t)) allTypes = some i) :
    ∀ (ts : List Str) (m : Nat), t ∈ ts → ts.foldl typeMinStep m ≤ i := by
  intro ts
  induction ts with
  | nil => intro m ht; cases ht
  | cons t0 ts ih =>
    intro m ht
    rcases List.mem_cons.mp ht with rfl | hmem
    · refine Nat.le_trans (typeFoldl_le_init ts (typeMinStep m t)) ?_
      unfold typeMinStep
      rw [hi]
      simp only
      split <;> omega
    · exact ih (typeMinStep m t0) hmem

theorem typeFoldl_cases (ts : List Str) (m : Nat) :
    ts.foldl typeMinStep m = m ∨
      ∃ t ∈ ts, List.findIdx? (fun y => decide (y = t)) allTypes =
        some (ts.foldl typeMinStep m) := by
  induction ts generalizing m with
  | nil => exact Or.inl rfl
  | cons t0 ts ih =>
    have hfold : (t0 :: ts).foldl typeMinStep m = ts.foldl typeMinStep (typeMinStep m t0) := rfl
    rcases ih (typeMinStep m t0) with heq | ⟨t, htmem, hidx⟩
    · rw [hfold, heq]
      unfold typeMinStep
      cases hfi : List.findIdx? (fun y => decide (y = t0)) allTypes with
      | some i =>
        simp only
        split
        · exact Or.inr ⟨t0, List.mem_cons_self .., hfi⟩
        · exact Or.inl rfl
      | none => exact Or.inl rfl
    · exact Or.inr ⟨t, List.mem_cons_of_mem t0 htmem, hfold ▸ hidx⟩

theorem empty_not_mem_allTypes : ([] : Str) ∉ allTypes := by decide

theorem findIdx?_eq_none_of_not_mem {l : List Str} {x : Str} (h : x ∉ l) :
    List.findIdx? (fun y => decide (y = x)) l = none := by
  rw [List.findIdx?_eq_none_iff]
  intro y hy
  simp only [decide_eq_false_iff_not]
  rintro rfl
  exact h hy

theorem typeFoldl_unknown :
    ∀ (ts : List Str) (m : Nat), (∀ t ∈ ts, t ∉ allTypes) →
      ts.foldl typeMinStep m = m := by
  intro ts
  induction ts with
  | nil => intro m _; rfl
  | cons t0 ts ih =>
    intro m h
    have hstep : typeMinStep m t0 = m := by
      unfold typeMinStep
      rw [findIdx?_eq_none_of_not_mem (h t0 (List.mem_cons_self ..))]
    calc (t0 :: ts).foldl typeMinStep m = ts.foldl typeMinStep (typeMinStep m t0) := rfl
      _ = typeMinStep m t0 := ih _ (fun t htm => h t (List.mem_cons_of_mem t0 htm))
      _ = m := hstep

/-- A card none of whose types is recognized gets the maximal index. -/
theorem getEarliestTypeIndex_unknown {ct : CType}
    (h : ∀ t ∈ cardTypesList ct, t ∉ allTypes) :
    getEarliestTypeIndex ct = allTypes.length := by
  cases ct with
  | undef => rfl
  | one t =>
    have ht : t ∉ allTypes := h t (by simp [cardTypesList])
    simp only [getEarliestTypeIndex]
    rw [findIdx?_eq_none_of_not_mem ht]
    split <;> rfl
  | many ts =>
    simp only [getEarliestTypeIndex]
    exact typeFoldl_unknown ts allTypes.length (by simpa [cardTypesList] using h)

/-- A card with a recognized type gets an index strictly below
`allTypes.length`. -/
theorem getEarliestTypeIndex_recognized {ct : CType}
    (h : ∃ t ∈ cardTypesList ct, t ∈ allTypes) :
    getEarliestTypeIndex ct < allTypes.length := by
  obtain ⟨t, htm, hta⟩ := h
  cases ct with
  | undef => simp [cardTypesList] at htm
  | one t1 =>
    simp only [cardTypesList, List.mem_singleton] at htm
    subst htm
    obtain ⟨i, hi⟩ := findIdx?_isSome_of_mem hta
    have hlt := findIdx?_some_lt hi
    have hne : ¬ t = [] := fun he => empty_not_mem_allTypes (he ▸ hta)
    simp only [getEarliestTypeIndex]
    rw [if_neg hne, hi]
    simp only
    split <;> omega
  | many ts =>
    simp only [cardTypesList] at htm
    obtain ⟨i, hi⟩ := findIdx?_isSome_of_mem hta
    have hlt := findIdx?_some_lt hi
    have hle := typeFoldl_le_found hi ts allTypes.length htm
    simp only [getEarliestTypeIndex]
    omega

/-! ### Claim theorems -/

/-- C7: the comparator used for the selectable pool
(`sortedAndFilteredAvailableCards`) and the comparator used for the deck
display (`sortedDeckCards`) agree on every pair of cards: composing kind
order, type order and natural id order with short-circuiting, the two
return identical values (hence the same sign). -/
theorem deck_pool_comparators_agree :
    ∀ x y : DeckItem, deckCmp x y = poolCmp x.card y.card := by
  intro x y
  rfl

/-- C5: `importDeckFromCode` reports a failure and leaves the deck
unchanged when the code decodes to zero entries, and replaces the deck
with the decoded entries when there is at least one. -/
theorem importDeckFromCode_spec :
    ∀ (catalog : List Card) (deck : List DeckItem) (code : Str),
      (decodeDeckCode catalog code = [] →
        importDeckFromCode catalog deck code = (deck, true)) ∧
      (decodeDeckCode catalog code ≠ [] →
        importDeckFromCode catalog deck code = (decodeDeckCode catalog code, false)) := by
  intro catalog deck code
  constructor
  · intro h
    simp [importDeckFromCode, h]
  · intro h
    simp [importDeckFromCode, List.length_pos.mpr h]

/-- Witness for C5 at a concrete input: the empty code against an empty
catalog decodes to nothing, so the import fails and the deck is kept. -/
theorem importDeckFromCode_spec_witness :
    importDeckFromCode [] [⟨sampleCard "X-1".toList, 2⟩] [] =
      ([⟨sampleCard "X-1".toList, 2⟩], true) :=
  (importDeckFromCode_spec [] [⟨sampleCard "X-1".toList, 2⟩] []).1 (by decide)

/-- C9: in `kindSort` an unrecognized kind receives index `-1` and sorts
before every recognized kind; in `typeSort` a card with no recognized
type (or no type) receives the maximal index `allTypes.length` and sorts
after every card with a recognized type, and a recognized card's index
is the smallest `allTypes` index among its types. -/
theorem kindSort_typeSort_unknown_spec :
    (∀ a b : Card, a.kind ∉ allKinds → b.kind ∈ allKinds →
      jsIndexOf allKinds a.kind = -1 ∧ kindSort a b < 0) ∧
    (∀ ct : CType, (∀ t ∈ cardTypesList ct, t ∉ allTypes) →
      getEarliestTypeIndex ct = allTypes.length) ∧
    (∀ a b : Card,
      (∀ t ∈ cardTypesList a.type, t ∉ allTypes) →
      (∃ t ∈ cardTypesList b.type, t ∈ allTypes) →
      0 < typeSort a b) ∧
    (∀ ts : List Str, (∃ t ∈ ts, t ∈ allTypes) →
      (∃ t ∈ ts, List.findIdx? (fun y => decide (y = t)) allTypes =
        some (getEarliestTypeIndex (.many ts))) ∧
      (∀ t ∈ ts, ∀ i, List.findIdx? (fun y => decide (y = t)) allTypes = some i →
        getEarliestTypeIndex (.many ts) ≤ i)) := by
  refine ⟨?_, fun ct h => getEarliestTypeIndex_unknown h, ?_, ?_⟩
  · intro a b ha hb
    refine ⟨jsIndexOf_of_not_mem ha, ?_⟩
    have hbn := jsIndexOf_nonneg_of_mem hb
    unfold kindSort
    rw [jsIndexOf_of_not_mem ha]
    omega
  · intro a b ha hb
    have h1 : getEarliestTypeIndex a.type = allTypes.length :=
      getEarliestTypeIndex_unknown ha
    have h2 : getEarliestTypeIndex b.type < allTypes.length :=
      getEarliestTypeIndex_recognized hb
    unfold typeSort
    omega
  · intro ts hrec
    constructor
    · rcases typeFoldl_cases ts allTypes.length with heq | hach
      · exfalso
        obtain ⟨t, htm, hta⟩ := hrec
        obtain ⟨i, hi⟩ := findIdx?_isSome_of_mem hta
        have hlt := findIdx?_some_lt hi
        have hle := typeFoldl_le_found hi ts allTypes.length htm
        have heq2 : getEarliestTypeIndex (.many ts) = allTypes.length := heq
        omega
      · exact hach
    · intro t htm i hi
      exact typeFoldl_le_found hi ts allTypes.length htm

/-- Witness for C9: a card of unknown kind `"X"` sorts before a `"Song"`
card; a card typed `"紫"` (unrecognized) sorts after one typed `"青"`;
and in `["黄", "赤"]` the earliest recognized index, `0` for `"赤"`, wins. -/
theorem kindSort_typeSort_unknown_spec_witness :
    (jsIndexOf allKinds "X".toList = -1 ∧
      kindSort ⟨"A".toList, [], "X".toList, .undef, none⟩
        ⟨"B".toList, [], "Song".toList, .undef, none⟩ < 0) ∧
    getEarliestTypeIndex (.one "紫".toList) = allTypes.length ∧
    0 < typeSort ⟨"A".toList, [], [], .one "紫".toList, none⟩
        ⟨"B".toList, [], [], .one "青".toList, none⟩ ∧
    ((∃ t ∈ ["黄".toList, "赤".toList],
        List.findIdx? (fun y => decide (y = t)) allTypes =
          some (getEarliestTypeIndex (.many ["黄".toList, "赤".toList]))) ∧
      (∀ t ∈ ["黄".toList, "赤".toList], ∀ i,
        List.findIdx? (fun y => decide (y = t)) allTypes = some i →
        getEarliestTypeIndex (.many ["黄".toList, "赤".toList]) ≤ i)) :=
  ⟨kindSort_typeSort_unknown_spec.1 ⟨"A".toList, [], "X".toList, .undef, none⟩
      ⟨"B".toList, [], "Song".toList, .undef, none⟩ (by decide) (by decide),
   kindSort_typeSort_unknown_spec.2.1 (.one "紫".toList) (by decide),
   kindSort_typeSort_unknown_spec.2.2.1 ⟨"A".toList, [], [], .one "紫".toList, none⟩
      ⟨"B".toList, [], [], .one "青".toList, none⟩ (by decide) (by decide),
   kindSort_typeSort_unknown_spec.2.2.2 ["黄".toList, "赤".toList] (by decide)⟩

/-- C3: `addCardToDeck` rejects with a capacity error and leaves the
deck unchanged when the total is at least 60; otherwise it increments
the existing entry's count unless it is already 4 (then a silent no-op),
or appends a new entry with count 1; five adds of the same card on an
empty deck give a single entry with count 4, the fifth call a no-op. -/
theorem addCardToDeck_spec :
    (∀ (d : List DeckItem) (card : Card), 60 ≤ totalDeckCards d →
      addCardToDeck d card = (d, true)) ∧
    (∀ (d : List DeckItem) (card : Card) (item : DeckItem), totalDeckCards d < 60 →
      d.find? (fun i => i.card.id = card.id) = some item →
      (item.count < 4 →
        addCardToDeck d card = (updateFirst d card.id (item.count + 1), false)) ∧
      (item.count = 4 → addCardToDeck d card = (d, false))) ∧
    (∀ (d : List DeckItem) (card : Card), totalDeckCards d < 60 →
      d.find? (fun i => i.card.id = card.id) = none →
      addCardToDeck d card = (d ++ [⟨card, 1⟩], false)) ∧
    (∀ card : Card,
      (addCardToDeck ((addCardToDeck ((addCardToDeck ((addCardToDeck
          ([] : List DeckItem) card).1) card).1) card).1) card).1 = [⟨card, 4⟩] ∧
      addCardToDeck [⟨card, 4⟩] card = ([⟨card, 4⟩], false)) := by
  refine ⟨?_, ?_, ?_, ?_⟩
  · intro d card h
    simp [addCardToDeck, h]
  · intro d card item hlt hfind
    constructor
    · intro hc
      simp [addCardToDeck, Nat.not_le.mpr hlt, hfind, hc]
    · intro hc
      simp [addCardToDeck, Nat.not_le.mpr hlt, hfind, hc]
  · intro d card hlt hfind
    simp [addCardToDeck, Nat.not_le.mpr hlt, hfind]
  · intro card
    constructor
    · simp [addCardToDeck, totalDeckCards, updateFirst, List.find?]
    · simp [addCardToDeck, totalDeckCards, List.find?]

/-- Witness for C3: concrete runs of every branch on small decks. -/
theorem addCardToDeck_spec_witness :
    addCardToDeck [⟨sampleCard "X-1".toList, 60⟩] (sampleCard "Y-2".toList) =
      ([⟨sampleCard "X-1".toList, 60⟩], true) ∧
    addCardToDeck [⟨sampleCard "X-1".toList, 2⟩] (sampleCard "X-1".toList) =
      ([⟨sampleCard "X-1".toList, 3⟩], false) ∧
    addCardToDeck [⟨sampleCard "X-1".toList, 4⟩] (sampleCard "X-1".toList) =
      ([⟨sampleCard "X-1".toList, 4⟩], false) ∧
    addCardToDeck [⟨sampleCard "X-1".toList, 2⟩] (sampleCard "Y-2".toList) =
      ([⟨sampleCard "X-1".toList, 2⟩, ⟨sampleCard "Y-2".toList, 1⟩], false) ∧
    (addCardToDeck ((addCardToDeck ((addCardToDeck ((addCardToDeck
        ([] : List DeckItem) (sampleCard "X-1".toList)).1)
        (sampleCard "X-1".toList)).1) (sampleCard "X-1".toList)).1)
        (sampleCard "X-1".toList)).1 = [⟨sampleCard "X-1".toList, 4⟩] :=
  ⟨addCardToDeck_spec.1 _ _ (by decide),
   by
    have h := (addCardToDeck_spec.2.1 [⟨sampleCard "X-1".toList, 2⟩]
      (sampleCard "X-1".toList) ⟨sampleCard "X-1".toList, 2⟩ (by decide) (by decide)).1
      (by decide)
    rw [h]; decide,
   (addCardToDeck_spec.2.1 [⟨sampleCard "X-1".toList, 4⟩]
      (sampleCard "X-1".toList) ⟨sampleCard "X-1".toList, 4⟩ (by decide) (by decide)).2
      (by decide),
   addCardToDeck_spec.2.2.1 _ _ (by decide) (by decide),
   (addCardToDeck_spec.2.2.2 (sampleCard "X-1".toList)).1⟩

/-! ### Filter engine lemmas -/

theorem containsSub_iff {hay needle : Str} :
    containsSub hay needle = true ↔ needle <:+: hay := by
  induction hay with
  | nil =>
    simp only [containsSub, List.isEmpty_iff, List.infix_nil]
  | cons c rest ih =>
    simp only [containsSub, Bool.or_eq_true, List.isPrefixOf_iff_prefix, ih]
    exact (List.infix_cons_iff).symm

theorem containsSub_false_iff {hay needle : Str} :
    containsSub hay needle = false ↔ ¬ needle <:+: hay := by
  rw [← containsSub_iff]
  cases containsSub hay needle <;> simp

theorem reject_chain_eq_true_iff (c1 c2 c3 c4 : Bool) :
    ((if c1 then false else if c2 then false
      else if c3 then false else if c4 then false else true) = true) ↔
    (c1 = false ∧ c2 = false ∧ c3 = false ∧ c4 = false) := by
  cases c1 <;> cases c2 <;> cases c3 <;> cases c4 <;> simp

theorem mem_filterCards_iff {cards : List Card} {criteria : FilterCriteria} {card : Card} :
    card ∈ filterCards cards criteria ↔ card ∈ cards ∧ MatchesSpec card criteria := by
  unfold filterCards
  rw [List.mem_filter]
  refine and_congr_right fun _ => ?_
  rw [reject_chain_eq_true_iff]
  unfold MatchesSpec
  refine and_congr ?_ (and_congr ?_ (and_congr ?_ ?_))
  · rw [Bool.and_eq_false_iff]
    cases card.tags with
    | none =>
      simp [containsSub_iff, containsSub_false_iff, List.isEmpty_iff,
        List.map_eq_nil_iff, toLower, Option.getD]
      tauto
    | some tags =>
      simp [containsSub_iff, containsSub_false_iff, List.isEmpty_iff,
        List.map_eq_nil_iff, toLower, Option.getD, List.any_eq_true]
      tauto
  · rw [Bool.and_eq_false_iff]
    simp [List.contains, List.elem_iff, List.length_eq_zero]
  · rw [Bool.and_eq_false_iff]
    simp [List.contains, List.elem_iff, List.length_eq_zero, List.any_eq_true]
  · rw [Bool.and_eq_false_iff]
    cases card.tags with
    | none => simp [List.length_eq_zero, Option.getD]
    | some tags =>
      simp [List.contains, List.elem_iff, List.length_eq_zero, Option.getD,
        List.any_eq_true]

/-- C8: `filterCards` keeps exactly the cards satisfying the spec's
four-way AND (text, kind, type, tags, each OR within the category);
empty criteria keep the whole catalog, and `kind = {"Song"}` keeps only
Song cards. -/
theorem filterCards_spec :
    (∀ (cards : List Card) (criteria : FilterCriteria) (card : Card),
      card ∈ filterCards cards criteria ↔ card ∈ cards ∧ MatchesSpec card criteria) ∧
    (∀ cards : List Card, filterCards cards ⟨[], [], [], []⟩ = cards) ∧
    (∀ (cards : List Card) (card : Card),
      card ∈ filterCards cards ⟨[], ["Song".toList], [], []⟩ →
      card.kind = "Song".toList) := by
  refine ⟨fun _ _ _ => mem_filterCards_iff, ?_, ?_⟩
  · intro cards
    unfold filterCards
    rw [List.filter_eq_self]
    intro a _
    rfl
  · intro cards card hmem
    have h := (mem_filterCards_iff.mp hmem).2.2.1
    rcases h with h1 | h2
    · exact absurd h1 (by decide)
    · simpa using h2

/-- Witness for C8: a concrete Song card passes the Song-only filter and
is indeed of kind Song. -/
theorem filterCards_spec_witness :
    sampleCard "X-1".toList ∈
      filterCards [sampleCard "X-1".toList] ⟨[], ["Song".toList], [], []⟩ ∧
    (sampleCard "X-1".toList).kind = "Song".toList :=
  ⟨by decide, filterCards_spec.2.2 [sampleCard "X-1".toList] _ (by decide)⟩

/-- C10: when a card's `tags` field is missing or not an array,
`filterCards` (a total function) treats the card as having no tags: it
is excluded whenever `criteria.tags` is non-empty, and its text match
can only go through its name or id. -/
theorem filterCards_missing_tags_spec :
    ∀ (cards : List Card) (criteria : FilterCriteria) (card : Card),
      card.tags = none →
      (criteria.tags ≠ [] → card ∉ filterCards cards criteria) ∧
      (card ∈ filterCards cards criteria ↔
        card ∈ cards ∧
        (criteria.text = [] ∨
          toLower criteria.text <:+: toLower card.name ∨
          toLower criteria.text <:+: toLower card.id) ∧
        (criteria.kind = [] ∨ card.kind ∈ criteria.kind) ∧
        (criteria.type = [] ∨ ∃ t ∈ cardTypesList card.type, t ∈ criteria.type) ∧
        criteria.tags = []) := by
  intro cards criteria card htags
  have hms : MatchesSpec card criteria ↔
      (criteria.text = [] ∨
        toLower criteria.text <:+: toLower card.name ∨
        toLower criteria.text <:+: toLower card.id) ∧
      (criteria.kind = [] ∨ card.kind ∈ criteria.kind) ∧
      (criteria.type = [] ∨ ∃ t ∈ cardTypesList card.type, t ∈ criteria.type) ∧
      criteria.tags = [] := by
    unfold MatchesSpec
    rw [htags]
    simp
  constructor
  · intro hne hmem
    exact hne (((hms.mp (mem_filterCards_iff.mp hmem).2)).2.2.2)
  · rw [mem_filterCards_iff, hms]

/-- Witness for C10: a card without a tags array is rejected by a
tags-filtered search, and with a tag-free criteria set it passes via its
name/id. -/
theorem filterCards_missing_tags_spec_witness :
    (⟨"X-1".toList, "X-1".toList, "Song".toList, .one "赤".toList, none⟩ : Card) ∉
      filterCards [⟨"X-1".toList, "X-1".toList, "Song".toList, .one "赤".toList, none⟩]
        ⟨[], [], [], ["V.W.P".toList]⟩ :=
  (filterCards_missing_tags_spec _ _ _ (by decide)).1 (by decide)

/-! ### Deck store lemmas -/

theorem foldl_count_shift :
    ∀ (d : List DeckItem) (n : Nat),
      d.foldl (fun sum item => sum + item.count) n
        = n + d.foldl (fun sum item => sum + item.count) 0 := by
  intro d
  induction d with
  | nil => intro n; simp
  | cons x d ih =>
    intro n
    simp only [List.foldl_cons]
    rw [ih (n + x.count), ih (0 + x.count)]
    omega

theorem DeckItem_count_mk (c : Card) (n : Nat) : (⟨c, n⟩ : DeckItem).count = n := rfl

theorem totalDeckCards_cons (x : DeckItem) (d : List DeckItem) :
    totalDeckCards (x :: d) = x.count + totalDeckCards d := by
  show List.foldl _ (0 + x.count) d = _
  rw [foldl_count_shift d (0 + x.count)]
  show 0 + x.count + totalDeckCards d = _
  omega

theorem totalDeckCards_append (d1 d2 : List DeckItem) :
    totalDeckCards (d1 ++ d2) = totalDeckCards d1 + totalDeckCards d2 := by
  induction d1 with
  | nil => simp [totalDeckCards]
  | cons x d ih =>
    rw [List.cons_append, totalDeckCards_cons, totalDeckCards_cons, ih]
    omega

theorem totalDeckCards_filter_le (p : DeckItem → Bool) (d : List DeckItem) :
    totalDeckCards (d.filter p) ≤ totalDeckCards d := by
  induction d with
  | nil => exact Nat.le_refl _
  | cons x d ih =>
    rw [List.filter_cons, totalDeckCards_cons]
    split
    · rw [totalDeckCards_cons]; omega
    · omega

theorem updateFirst_map_id (d : List DeckItem) (id : Str) (n : Nat) :
    (updateFirst d id n).map (fun i => i.card.id) = d.map (fun i => i.card.id) := by
  induction d with
  | nil => rfl
  | cons x d ih =>
    unfold updateFirst
    split
    · rfl
    · simp only [List.map_cons, ih]

theorem mem_updateFirst {x : DeckItem} {d : List DeckItem} {id : Str} {n : Nat}
    (h : x ∈ updateFirst d id n) : x ∈ d ∨ x.count = n := by
  induction d with
  | nil => cases h
  | cons y d ih =>
    unfold updateFirst at h
    split at h
    · rcases List.mem_cons.mp h with rfl | hmem
      · exact Or.inr rfl
      · exact Or.inl (List.mem_cons_of_mem y hmem)
    · rcases List.mem_cons.mp h with rfl | hmem
      · exact Or.inl (List.mem_cons_self ..)
      · rcases ih hmem with h1 | h2
        · exact Or.inl (List.mem_cons_of_mem y h1)
        · exact Or.inr h2

theorem total_updateFirst {d : List DeckItem} {id : Str} {item : DeckItem} (n : Nat)
    (h : d.find? (fun i => i.card.id = id) = some item) :
    totalDeckCards (updateFirst d id n) + item.count = totalDeckCards d + n := by
  induction d with
  | nil => cases h
  | cons x d ih =>
    by_cases hx : x.card.id = id
    · rw [List.find?_cons_of_pos _ (by simpa using hx)] at h
      cases h
      unfold updateFirst
      rw [if_pos hx, totalDeckCards_cons, totalDeckCards_cons]
      simp only [DeckItem_count_mk]
      omega
    · rw [List.find?_cons_of_neg _ (by simpa using hx)] at h
      unfold updateFirst
      rw [if_neg hx, totalDeckCards_cons, totalDeckCards_cons]
      have := ih h
      omega

theorem DeckInv_nil : DeckInv [] := by decide

theorem stepDeck_inv {d : List DeckItem} (h : DeckInv d) (op : Op) :
    DeckInv (stepDeck d op) := by
  obtain ⟨htot, hcnt, hnd⟩ := h
  have hupd : ∀ (id : Str) (item : DeckItem) (n : Nat),
      d.find? (fun i => i.card.id = id) = some item →
      1 ≤ n → n ≤ 4 → totalDeckCards (updateFirst d id n) + item.count = totalDeckCards d + n →
      totalDeckCards (updateFirst d id n) ≤ 60 → DeckInv (updateFirst d id n) := by
    intro id item n _ h1 h4 _ htle
    refine ⟨htle, ?_, ?_⟩
    · intro x hx
      rcases mem_updateFirst hx with hxd | hxn
      · exact hcnt x hxd
      · omega
    · rw [updateFirst_map_id]; exact hnd
  have hfilter : ∀ p : DeckItem → Bool, DeckInv (d.filter p) := by
    intro p
    refine ⟨Nat.le_trans (totalDeckCards_filter_le p d) htot, ?_, ?_⟩
    · intro x hx
      exact hcnt x (List.mem_filter.mp hx).1
    · exact List.Nodup.sublist (List.Sublist.map _ (List.filter_sublist d)) hnd
  cases op with
  | add c =>
    show DeckInv (addCardToDeck d c).1
    unfold addCardToDeck
    split
    · exact ⟨htot, hcnt, hnd⟩
    · rename_i hlt
      rw [Nat.not_le] at hlt
      cases hfind : d.find? (fun i => i.card.id = c.id) with
      | some item =>
        simp only
        split
        · rename_i hc4
          have hmem := List.mem_of_find?_eq_some hfind
          have hb := hcnt item hmem
          have ht := total_updateFirst (item.count + 1) hfind
          exact hupd c.id item (item.count + 1) hfind (by omega) (by omega) ht (by omega)
        · exact ⟨htot, hcnt, hnd⟩
      | none =>
        simp only
        refine ⟨?_, ?_, ?_⟩
        · rw [totalDeckCards_append]
          have : totalDeckCards [(⟨c, 1⟩ : DeckItem)] = 1 := rfl
          omega
        · intro x hx
          rcases List.mem_append.mp hx with hxd | hxe
          · exact hcnt x hxd
          · rcases List.mem_singleton.mp hxe with rfl
            exact ⟨Nat.le_refl 1, by show (1 : Nat) ≤ 4; decide⟩
        · rw [List.map_append]
          rw [List.nodup_append]
          refine ⟨hnd, List.nodup_singleton _, ?_⟩
          intro a ha hb
          simp only [List.map_cons, List.map_nil, List.mem_singleton] at hb
          subst hb
          simp only [List.mem_map] at ha
          obtain ⟨i, hi, hic⟩ := ha
          have hne := List.find?_eq_none.mp hfind i hi
          simp only [decide_eq_true_eq] at hne
          exact hne hic
  | inc id =>
    show DeckInv (incrementCardCount d id).1
    unfold incrementCardCount
    split
    · exact ⟨htot, hcnt, hnd⟩
    · rename_i hlt
      rw [Nat.not_le] at hlt
      cases hfind : d.find? (fun i => i.card.id = id) with
      | some item =>
        simp only
        split
        · rename_i hc4
          have hmem := List.mem_of_find?_eq_some hfind
          have hb := hcnt item hmem
          have ht := total_updateFirst (item.count + 1) hfind
          exact hupd id item (item.count + 1) hfind (by omega) (by omega) ht (by omega)
        · exact ⟨htot, hcnt, hnd⟩
      | none => exact ⟨htot, hcnt, hnd⟩
  | dec id =>
    show DeckInv (decrementCardCount d id)
    unfold decrementCardCount
    cases hfind : d.find? (fun i => i.card.id = id) with
    | some item =>
      simp only
      have hmem := List.mem_of_find?_eq_some hfind
      have hb := hcnt item hmem
      split
      · rename_i hc1
        have ht := total_updateFirst (item.count - 1) hfind
        exact hupd id item (item.count - 1) hfind (by omega) (by omega) ht (by omega)
      · split
        · exact hfilter _
        · exact ⟨htot, hcnt, hnd⟩
    | none => exact ⟨htot, hcnt, hnd⟩
  | remove id =>
    exact hfilter _
  | reset confirm =>
    show DeckInv (resetDeck d confirm)
    unfold resetDeck
    split
    · exact DeckInv_nil
    · exact ⟨htot, hcnt, hnd⟩

/-- C1: starting from any deck satisfying the invariants (counts in
`[1,4]`, total at most 60, no zero-count entries, at most one entry per
card id), every sequence of `addCardToDeck`, `incrementCardCount`,
`decrementCardCount`, `removeCardFromDeck` and `resetDeck` preserves
them. -/
theorem deck_invariants_preserved :
    ∀ (d : List DeckItem), DeckInv d → ∀ ops : List Op,
      DeckInv (ops.foldl stepDeck d) := by
  intro d h ops
  induction ops generalizing d with
  | nil => exact h
  | cons op ops ih => exact ih _ (stepDeck_inv h op)

/-- Witness for C1: a concrete run of all five operations starting from
the empty deck keeps the invariants. -/
theorem deck_invariants_preserved_witness :
    DeckInv (([Op.add (sampleCard "X-1".toList), Op.add (sampleCard "X-1".toList),
        Op.inc "X-1".toList, Op.add (sampleCard "Y-2".toList),
        Op.dec "X-1".toList, Op.remove "Y-2".toList,
        Op.reset false]).foldl stepDeck []) :=
  deck_invariants_preserved [] (by decide) _

/-! ### Codec lemmas -/

theorem splitOnChar_ne_nil (sep : Char) (s : Str) : splitOnChar sep s ≠ [] := by
  cases s with
  | nil => simp [splitOnChar]
  | cons c rest =>
    unfold splitOnChar
    cases splitOnChar sep rest with
    | nil => simp
    | cons t ts =>
      simp only
      split <;> simp

theorem splitOnChar_no_sep {sep : Char} {x : Str} (h : sep ∉ x) :
    splitOnChar sep x = [x] := by
  induction x with
  | nil => rfl
  | cons c rest ih =>
    have hc : ¬ c = sep := fun he => h (he ▸ List.mem_cons_self ..)
    have hr : sep ∉ rest := fun hm => h (List.mem_cons_of_mem c hm)
    unfold splitOnChar
    rw [ih hr]
    simp [hc]

theorem splitOnChar_append_sep {sep : Char} {x s : Str} (h : sep ∉ x) :
    splitOnChar sep (x ++ sep :: s) = x :: splitOnChar sep s := by
  induction x with
  | nil =>
    show (match splitOnChar sep s with
      | [] => ([[]] : List Str)
      | t :: ts => if sep = sep then [] :: t :: ts else (sep :: t) :: ts)
        = [] :: splitOnChar sep s
    cases hsp : splitOnChar sep s with
    | nil => exact absurd hsp (splitOnChar_ne_nil sep s)
    | cons t ts => simp
  | cons c rest ih =>
    have hc : ¬ c = sep := fun he => h (he ▸ List.mem_cons_self ..)
    have hr : sep ∉ rest := fun hm => h (List.mem_cons_of_mem c hm)
    show (match splitOnChar sep (rest ++ sep :: s) with
      | [] => ([[]] : List Str)
      | t :: ts => if c = sep then [] :: t :: ts else (c :: t) :: ts)
        = (c :: rest) :: splitOnChar sep s
    rw [ih hr]
    simp [hc]

theorem splitOnChar_joinSep {sep : Char} :
    ∀ {l : List Str}, l ≠ [] → (∀ x ∈ l, sep ∉ x) →
      splitOnChar sep (joinSep sep l) = l := by
  intro l
  induction l with
  | nil => intro h; cases h rfl
  | cons x l ih =>
    intro _ hsep
    cases l with
    | nil =>
      show splitOnChar sep (joinSep sep [x]) = [x]
      exact splitOnChar_no_sep (hsep x (List.mem_cons_self ..))
    | cons y rest =>
      show splitOnChar sep (x ++ sep :: joinSep sep (y :: rest)) = x :: (y :: rest)
      rw [splitOnChar_append_sep (hsep x (List.mem_cons_self ..))]
      rw [ih (by simp) (fun z hz => hsep z (List.mem_cons_of_mem x hz))]

theorem keysOf_append (m1 m2 : List (Str × Nat)) :
    keysOf (m1 ++ m2) = keysOf m1 ++ keysOf m2 := by
  simp [keysOf]

theorem bump_fresh {m : List (Str × Nat)} {k : Str} (hk : k ∉ keysOf m) :
    bump m k = m ++ [(k, 1)] := by
  induction m with
  | nil => rfl
  | cons p m ih =>
    obtain ⟨k0, v0⟩ := p
    have hne : ¬ k0 = k := by
      intro he
      exact hk (he ▸ List.mem_cons_self ..)
    unfold bump
    rw [if_neg hne, ih (fun hm => hk (List.mem_cons_of_mem k0 hm))]
    rfl

theorem bump_last {m : List (Str × Nat)} {k : Str} (v : Nat) (hk : k ∉ keysOf m) :
    bump (m ++ [(k, v)]) k = m ++ [(k, v + 1)] := by
  induction m with
  | nil => simp [bump]
  | cons p m ih =>
    obtain ⟨k0, v0⟩ := p
    have hne : ¬ k0 = k := by
      intro he
      exact hk (he ▸ List.mem_cons_self ..)
    show bump ((k0, v0) :: (m ++ [(k, v)])) k = (k0, v0) :: (m ++ [(k, v + 1)])
    unfold bump
    rw [if_neg hne, ih (fun hm => hk (List.mem_cons_of_mem k0 hm))]

theorem foldl_bump_replicate {m : List (Str × Nat)} {k : Str} (hk : k ∉ keysOf m) :
    ∀ (n v : Nat),
      List.foldl bump (m ++ [(k, v)]) (List.replicate n k) = m ++ [(k, v + n)] := by
  intro n
  induction n with
  | zero => intro v; rfl
  | succ n ih =>
    intro v
    rw [List.replicate_succ, List.foldl_cons, bump_last v hk, ih (v + 1)]
    have : v + 1 + n = v + (n + 1) := by omega
    rw [this]

theorem countOccur_flatMap :
    ∀ (deck : List DeckItem) (m : List (Str × Nat)),
      (∀ item ∈ deck, 1 ≤ item.count) →
      (deck.map (fun i => i.card.id)).Nodup →
      (∀ item ∈ deck, item.card.id ∉ keysOf m) →
      List.foldl bump m (deck.flatMap (fun item => List.replicate item.count item.card.id))
        = m ++ deck.map (fun i => (i.card.id, i.count)) := by
  intro deck
  induction deck with
  | nil => intro m _ _ _; simp
  | cons item deck ih =>
    intro m hc hnd hdisj
    have hk : item.card.id ∉ keysOf m := hdisj item (List.mem_cons_self ..)
    obtain ⟨c, hc1⟩ : ∃ c, item.count = c + 1 :=
      ⟨item.count - 1, by have := hc item (List.mem_cons_self ..); omega⟩
    rw [List.flatMap_cons, List.foldl_append, hc1, List.replicate_succ,
      List.foldl_cons, bump_fresh hk, foldl_bump_replicate hk c 1]
    have hnd2 : item.card.id ∉ deck.map (fun i => i.card.id) ∧
        (deck.map (fun i => i.card.id)).Nodup := by
      rw [List.map_cons, List.nodup_cons] at hnd
      exact hnd
    rw [ih (m ++ [(item.card.id, 1 + c)])
      (fun i hi => hc i (List.mem_cons_of_mem item hi))
      hnd2.2
      ?_]
    · rw [List.append_assoc]
      have : 1 + c = item.count := by omega
      rw [this]
      rfl
    · intro i hi
      rw [keysOf_append]
      intro hmem
      rcases List.mem_append.mp hmem with h1 | h2
      · exact hdisj i (List.mem_cons_of_mem item hi) h1
      · have hidne : i.card.id ≠ item.card.id := by
          intro he
          exact hnd2.1 (he ▸ List.mem_map_of_mem _ hi)
        simp only [keysOf, List.map_cons, List.map_nil, List.mem_singleton] at h2
        exact hidne h2

theorem find?_catalog {catalog : List Card} {card : Card}
    (h4 : (catalog.map Card.id).Nodup) (hmem : card ∈ catalog) :
    catalog.find? (fun c => decide (c.id = card.id)) = some card := by
  induction catalog with
  | nil => cases hmem
  | cons c0 rest ih =>
    rcases List.mem_cons.mp hmem with rfl | hmem0
    · rw [List.find?_cons_of_pos _ (by simp)]
    · have hnd : c0.id ∉ rest.map Card.id ∧ (rest.map Card.id).Nodup := by
        rw [List.map_cons, List.nodup_cons] at h4
        exact h4
      have hne : ¬ c0.id = card.id := by
        intro he
        exact hnd.1 (he ▸ List.mem_map_of_mem _ hmem0)
      rw [List.find?_cons_of_neg _ (by simpa using hne)]
      exact ih hnd.2 hmem0

theorem filterMap_decode_map {catalog : List Card} :
    ∀ deck : List DeckItem,
      (∀ item ∈ deck,
        catalog.find? (fun c => decide (c.id = item.card.id)) = some item.card) →
      List.filterMap (fun p =>
          match catalog.find? (fun c => decide (c.id = p.1)) with
          | some card => some (⟨card, p.2⟩ : DeckItem)
          | none => none)
        (deck.map (fun i => (i.card.id, i.count))) = deck := by
  intro deck
  induction deck with
  | nil => intro _; rfl
  | cons item deck ih =>
    intro h
    rw [List.map_cons, List.filterMap_cons]
    dsimp only
    rw [h item (List.mem_cons_self ..)]
    rw [ih (fun i hi => h i (List.mem_cons_of_mem item hi))]

/-- Under the catalog assumptions, decoding an encoded deck restores the
deck exactly (same entries, same order). -/
theorem decodeDeckCode_encodeDeckCode {catalog : List Card} {deck : List DeckItem}
    (h1 : ∀ item ∈ deck, 1 ≤ item.count)
    (h3 : ∀ item ∈ deck, item.card ∈ catalog)
    (h4 : (catalog.map Card.id).Nodup)
    (h5 : ∀ c ∈ catalog, c.id ≠ [] ∧ '/' ∉ c.id)
    (h6 : (deck.map (fun i => i.card.id)).Nodup) :
    decodeDeckCode catalog (encodeDeckCode deck) = deck := by
  cases hdeck : deck with
  | nil =>
    have hfind : catalog.find? (fun c => decide (c.id = ([] : Str))) = none := by
      rw [List.find?_eq_none]
      intro c hcmem
      simp only [decide_eq_true_eq]
      exact (h5 c hcmem).1
    show decodeDeckCode catalog (joinSep '/' []) = []
    unfold decodeDeckCode
    show List.filterMap _ [(([] : Str), 1)] = []
    rw [List.filterMap_cons]
    simp [hfind]
  | cons item0 deck0 =>
    subst hdeck
    set L := (item0 :: deck0).flatMap (fun item => List.replicate item.count item.card.id)
      with hL
    have hLsep : ∀ x ∈ L, '/' ∉ x := by
      intro x hx
      rw [hL, List.mem_flatMap] at hx
      obtain ⟨item, hitem, hrep⟩ := hx
      rcases List.mem_replicate.mp hrep with ⟨_, rfl⟩
      exact (h5 item.card (h3 item hitem)).2
    have hLne : L ≠ [] := by
      rw [hL, List.flatMap_cons]
      intro he
      rcases List.append_eq_nil.mp he with ⟨he1, _⟩
      have := h1 item0 (List.mem_cons_self ..)
      rw [List.replicate_eq_nil_iff] at he1
      omega
    unfold decodeDeckCode encodeDeckCode
    rw [← hL, splitOnChar_joinSep hLne hLsep]
    have hco : countOccur L = (item0 :: deck0).map (fun i => (i.card.id, i.count)) := by
      rw [hL]
      exact countOccur_flatMap (item0 :: deck0) [] h1 h6
        (fun i _ hmem => absurd hmem (by simp [keysOf]))
    rw [hco]
    exact filterMap_decode_map (item0 :: deck0)
      (fun i hi => find?_catalog h4 (h3 i hi))

/-- C2: for every deck whose counts are in `[1,4]` and whose total is in
`[0,60]` (entries drawn from the catalog, whose ids are unique, nonempty
and delimiter-free), `decodeDeckCode (encodeDeckCode deck)` reproduces,
as a multiset of `(id, count)` pairs, exactly the original deck. -/
theorem decode_encode_roundtrip :
    ∀ (catalog : List Card) (deck : List DeckItem),
      (∀ item ∈ deck, 1 ≤ item.count ∧ item.count ≤ 4) →
      totalDeckCards deck ≤ 60 →
      (∀ item ∈ deck, item.card ∈ catalog) →
      (catalog.map Card.id).Nodup →
      (∀ c ∈ catalog, c.id ≠ [] ∧ '/' ∉ c.id) →
      (deck.map (fun i => i.card.id)).Nodup →
      ((decodeDeckCode catalog (encodeDeckCode deck)).map
          (fun i => (i.card.id, i.count)) : Multiset (Str × Nat))
        = (deck.map (fun i => (i.card.id, i.count)) : Multiset (Str × Nat)) := by
  intro catalog deck h1 _h2 h3 h4 h5 h6
  rw [decodeDeckCode_encodeDeckCode (fun i hi => (h1 i hi).1) h3 h4 h5 h6]

/-- Witness for C2: a concrete two-card deck against a two-card catalog
round-trips. -/
theorem decode_encode_roundtrip_witness :
    ((decodeDeckCode [sampleCard "X-1".toList, sampleCard "Y-2".toList]
        (encodeDeckCode [⟨sampleCard "X-1".toList, 2⟩, ⟨sampleCard "Y-2".toList, 1⟩])).map
        (fun i => (i.card.id, i.count)) : Multiset (Str × Nat))
      = ((([⟨sampleCard "X-1".toList, 2⟩, ⟨sampleCard "Y-2".toList, 1⟩] : List DeckItem).map
        (fun i => (i.card.id, i.count)) : List (Str × Nat)) : Multiset (Str × Nat)) :=
  decode_encode_roundtrip [sampleCard "X-1".toList, sampleCard "Y-2".toList]
    [⟨sampleCard "X-1".toList, 2⟩, ⟨sampleCard "Y-2".toList, 1⟩]
    (by decide) (by decide) (by decide) (by decide) (by decide) (by decide)

/-! ### Occurrence-map characterization (for C4) -/

theorem bump_nil (k : Str) : bump [] k = [(k, 1)] := rfl

theorem bump_cons_pos {k0 : Str} (v0 : Nat) (m : List (Str × Nat)) {k : Str}
    (h : k0 = k) : bump ((k0, v0) :: m) k = (k0, v0 + 1) :: m := by
  show (if k0 = k then (k0, v0 + 1) :: m else (k0, v0) :: bump m k) = _
  rw [if_pos h]

theorem bump_cons_neg {k0 : Str} (v0 : Nat) (m : List (Str × Nat)) {k : Str}
    (h : ¬ k0 = k) : bump ((k0, v0) :: m) k = (k0, v0) :: bump m k := by
  show (if k0 = k then (k0, v0 + 1) :: m else (k0, v0) :: bump m k) = _
  rw [if_neg h]

theorem valOf_cons (k0 : Str) (v0 : Nat) (m : List (Str × Nat)) (k : Str) :
    valOf ((k0, v0) :: m) k = if k0 = k then v0 else valOf m k := rfl

theorem valOf_bump_self : ∀ (m : List (Str × Nat)) (k : Str),
    valOf (bump m k) k = valOf m k + 1 := by
  intro m k
  induction m with
  | nil => rw [bump_nil, valOf_cons, if_pos rfl]; rfl
  | cons p m ih =>
    obtain ⟨k0, v0⟩ := p
    by_cases hk : k0 = k
    · rw [bump_cons_pos v0 m hk, valOf_cons, valOf_cons, if_pos hk, if_pos hk]
    · rw [bump_cons_neg v0 m hk, valOf_cons, valOf_cons, if_neg hk, if_neg hk, ih]

theorem valOf_bump_ne : ∀ (m : List (Str × Nat)) (k k' : Str), k' ≠ k →
    valOf (bump m k) k' = valOf m k' := by
  intro m k k' hne
  induction m with
  | nil =>
    rw [bump_nil, valOf_cons]
    rw [if_neg (fun h => hne h.symm)]
  | cons p m ih =>
    obtain ⟨k0, v0⟩ := p
    by_cases hk : k0 = k
    · rw [bump_cons_pos v0 m hk, valOf_cons, valOf_cons]
      have hne0 : ¬ k0 = k' := fun h => hne (h ▸ hk)
      rw [if_neg hne0, if_neg hne0]
    · rw [bump_cons_neg v0 m hk, valOf_cons, valOf_cons, ih]

theorem mem_keysOf_bump : ∀ (m : List (Str × Nat)) (k a : Str),
    a ∈ keysOf (bump m k) ↔ a ∈ keysOf m ∨ a = k := by
  intro m k a
  induction m with
  | nil => simp [bump_nil, keysOf]
  | cons p m ih =>
    obtain ⟨k0, v0⟩ := p
    by_cases hk : k0 = k
    · subst hk
      rw [bump_cons_pos v0 m rfl]
      simp only [keysOf, List.map_cons, List.mem_cons]
      tauto
    · rw [bump_cons_neg v0 m hk]
      simp only [keysOf, List.map_cons, List.mem_cons] at ih ⊢
      rw [ih]
      tauto

theorem nodup_keysOf_bump : ∀ (m : List (Str × Nat)) (k : Str),
    (keysOf m).Nodup → (keysOf (bump m k)).Nodup := by
  intro m k hm
  induction m with
  | nil => simp [bump_nil, keysOf]
  | cons p m ih =>
    obtain ⟨k0, v0⟩ := p
    simp only [keysOf, List.map_cons, List.nodup_cons] at hm
    by_cases hk : k0 = k
    · rw [bump_cons_pos v0 m hk]
      simp only [keysOf, List.map_cons, List.nodup_cons]
      exact hm
    · rw [bump_cons_neg v0 m hk]
      simp only [keysOf, List.map_cons, List.nodup_cons]
      refine ⟨?_, ih hm.2⟩
      rw [show (bump m k).map Prod.fst = keysOf (bump m k) from rfl, mem_keysOf_bump]
      rintro (h | rfl)
      · exact hm.1 h
      · exact hk rfl

theorem mem_assoc_iff_valOf : ∀ (m : List (Str × Nat)), (keysOf m).Nodup →
    ∀ (k : Str) (v : Nat), ((k, v) ∈ m ↔ k ∈ keysOf m ∧ v = valOf m k) := by
  intro m
  induction m with
  | nil => intro _ k v; simp [keysOf]
  | cons p m ih =>
    obtain ⟨k0, v0⟩ := p
    intro hnd k v
    have hkeys : keysOf ((k0, v0) :: m) = k0 :: keysOf m := rfl
    rw [hkeys] at hnd ⊢
    have hnd2 := List.nodup_cons.mp hnd
    rw [valOf_cons]
    by_cases hk : k0 = k
    · subst hk
      rw [if_pos rfl]
      constructor
      · intro h
        rcases List.mem_cons.mp h with heq | hmem
        · have h2 : v = v0 := congrArg Prod.snd heq
          exact ⟨List.mem_cons_self .., h2⟩
        · exact absurd (List.mem_map_of_mem Prod.fst hmem) hnd2.1
      · rintro ⟨_, rfl⟩
        exact List.mem_cons_self ..
    · rw [if_neg hk]
      constructor
      · intro h
        rcases List.mem_cons.mp h with heq | hmem
        · have h1 : k = k0 := congrArg Prod.fst heq
          exact absurd h1.symm hk
        · obtain ⟨h1, h2⟩ := (ih hnd2.2 k v).mp hmem
          exact ⟨List.mem_cons_of_mem _ h1, h2⟩
      · rintro ⟨hmem, rfl⟩
        rcases List.mem_cons.mp hmem with heq | hmem2
        · exact absurd heq.symm hk
        · exact List.mem_cons_of_mem _ ((ih hnd2.2 k _).mpr ⟨hmem2, rfl⟩)

theorem valOf_foldl_bump : ∀ (l : List Str) (m : List (Str × Nat)) (k : Str),
    valOf (List.foldl bump m l) k = valOf m k + l.count k := by
  intro l
  induction l with
  | nil => intro m k; simp
  | cons k0 l ih =>
    intro m k
    rw [List.foldl_cons, ih (bump m k0) k]
    by_cases hk : k0 = k
    · subst hk
      rw [valOf_bump_self, List.count_cons_self]
      omega
    · rw [valOf_bump_ne m k0 k (fun h => hk h.symm),
        List.count_cons_of_ne (fun h => hk (by simpa using h.symm)) l]

theorem nodup_keysOf_foldl_bump : ∀ (l : List Str) (m : List (Str × Nat)),
    (keysOf m).Nodup → (keysOf (List.foldl bump m l)).Nodup := by
  intro l
  induction l with
  | nil => intro m hm; exact hm
  | cons k0 l ih => intro m hm; exact ih (bump m k0) (nodup_keysOf_bump m k0 hm)

theorem mem_keysOf_foldl_bump : ∀ (l : List Str) (m : List (Str × Nat)) (k : Str),
    k ∈ keysOf (List.foldl bump m l) ↔ k ∈ keysOf m ∨ k ∈ l := by
  intro l
  induction l with
  | nil => intro m k; simp
  | cons k0 l ih =>
    intro m k
    rw [List.foldl_cons, ih (bump m k0) k, mem_keysOf_bump]
    simp only [List.mem_cons]
    tauto

theorem countOccur_keys_nodup (l : List Str) : (keysOf (countOccur l)).Nodup :=
  nodup_keysOf_foldl_bump l [] (by simp [keysOf])

theorem mem_countOccur_iff {l : List Str} {k : Str} {v : Nat} :
    (k, v) ∈ countOccur l ↔ k ∈ l ∧ v = l.count k := by
  rw [mem_assoc_iff_valOf (countOccur l) (countOccur_keys_nodup l) k v]
  unfold countOccur
  rw [mem_keysOf_foldl_bump, valOf_foldl_bump]
  simp [keysOf, valOf]

/-- Membership in `decodeDeckCode`, unfolded through `filterMap`. -/
theorem mem_decodeDeckCode_iff {catalog : List Card} {code : Str} {i : DeckItem} :
    i ∈ decodeDeckCode catalog code ↔
      ∃ k v, (k, v) ∈ countOccur (splitOnChar '/' code) ∧
        catalog.find? (fun c => decide (c.id = k)) = some i.card ∧ i.count = v := by
  unfold decodeDeckCode
  rw [List.mem_filterMap]
  constructor
  · rintro ⟨⟨k, v⟩, hmem, hf⟩
    cases hfind : catalog.find? (fun c => decide (c.id = k)) with
    | none => rw [hfind] at hf; cases hf
    | some card =>
      rw [hfind] at hf
      simp only [Option.some.injEq] at hf
      subst hf
      exact ⟨k, v, hmem, hfind, rfl⟩
  · rintro ⟨k, v, hmem, hfind, hcount⟩
    refine ⟨(k, v), hmem, ?_⟩
    rw [hfind]
    show some (⟨i.card, v⟩ : DeckItem) = some i
    rw [← hcount]

theorem decode_map_id_sublist {catalog : List Card} :
    ∀ pairs : List (Str × Nat),
      ((List.filterMap (fun p =>
          match catalog.find? (fun c => decide (c.id = p.1)) with
          | some card => some (⟨card, p.2⟩ : DeckItem)
          | none => none) pairs).map (fun i => i.card.id)).Sublist (keysOf pairs) := by
  intro pairs
  induction pairs with
  | nil => simp
  | cons p pairs ih =>
    obtain ⟨k, v⟩ := p
    have hkeys : keysOf ((k, v) :: pairs) = k :: keysOf pairs := rfl
    rw [hkeys, List.filterMap_cons]
    cases hf : catalog.find? (fun c => decide (c.id = k)) with
    | none =>
      dsimp only
      exact List.Sublist.cons k ih
    | some card =>
      dsimp only
      have hck : card.id = k := by
        have := List.find?_some hf
        simpa using this
      rw [List.map_cons]
      dsimp only
      rw [hck]
      exact List.Sublist.cons₂ k ih

/-- C4: `decodeDeckCode` splits on `'/'`, emits one entry per distinct id
found in the catalog with count equal to that id's number of
occurrences, silently drops unknown ids, and does not clamp counts; the
two concrete examples from the spec, plus an unclamped count of 5. -/
theorem decodeDeckCode_spec :
    (∀ (catalog : List Card) (code : Str),
      ((decodeDeckCode catalog code).map (fun i => i.card.id)).Nodup) ∧
    (∀ (catalog : List Card) (code : Str) (i : DeckItem),
      i ∈ decodeDeckCode catalog code →
      i.card ∈ catalog ∧ i.card.id ∈ splitOnChar '/' code ∧
        i.count = (splitOnChar '/' code).count i.card.id) ∧
    (∀ (catalog : List Card) (code : Str) (id : Str),
      id ∈ splitOnChar '/' code → (∃ c ∈ catalog, c.id = id) →
      ∃ i ∈ decodeDeckCode catalog code, i.card.id = id ∧
        i.count = (splitOnChar '/' code).count id) ∧
    decodeDeckCode [sampleCard "X-1".toList, sampleCard "Y-2".toList]
      "X-1/X-1/Y-2".toList
      = [⟨sampleCard "X-1".toList, 2⟩, ⟨sampleCard "Y-2".toList, 1⟩] ∧
    decodeDeckCode [sampleCard "X-1".toList, sampleCard "Y-2".toList]
      "Z-9".toList = [] ∧
    decodeDeckCode [sampleCard "X-1".toList]
      "X-1/X-1/X-1/X-1/X-1".toList = [⟨sampleCard "X-1".toList, 5⟩] := by
  refine ⟨?_, ?_, ?_, by decide, by decide, by decide⟩
  · intro catalog code
    exact List.Nodup.sublist (decode_map_id_sublist _)
      (countOccur_keys_nodup (splitOnChar '/' code))
  · intro catalog code i hi
    rw [mem_decodeDeckCode_iff] at hi
    obtain ⟨k, v, hmem, hfind, hcount⟩ := hi
    have hck : i.card.id = k := by
      have := List.find?_some hfind
      simpa using this
    have hkv := mem_countOccur_iff.mp hmem
    exact ⟨List.mem_of_find?_eq_some hfind, hck ▸ hkv.1, by rw [hck, hcount, hkv.2]⟩
  · intro catalog code id hid hcat
    cases hfind : catalog.find? (fun c => decide (c.id = id)) with
    | none =>
      obtain ⟨c, hc, hcid⟩ := hcat
      have := List.find?_eq_none.mp hfind c hc
      simp only [decide_eq_true_eq] at this
      exact absurd hcid this
    | some card =>
      have hck : card.id = id := by
        have := List.find?_some hfind
        simpa using this
      refine ⟨⟨card, (splitOnChar '/' code).count id⟩, ?_, hck, rfl⟩
      rw [mem_decodeDeckCode_iff]
      exact ⟨id, (splitOnChar '/' code).count id,
        mem_countOccur_iff.mpr ⟨hid, rfl⟩, hfind, rfl⟩

/-- Witness for C4: the characterization instantiated on the spec's
`"X-1/X-1/Y-2"` example. -/
theorem decodeDeckCode_spec_witness :
    ∃ i ∈ decodeDeckCode [sampleCard "X-1".toList, sampleCard "Y-2".toList]
        "X-1/X-1/Y-2".toList,
      i.card.id = "X-1".toList ∧
      i.count = (splitOnChar '/' "X-1/X-1/Y-2".toList).count "X-1".toList :=
  decodeDeckCode_spec.2.2.1 [sampleCard "X-1".toList, sampleCard "Y-2".toList]
    "X-1/X-1/Y-2".toList "X-1".toList (by decide) (by decide)

/-! ### Natural-sort lemmas (for C6) -/

theorem then_of_ne_eq {o r : Ordering} (h : o ≠ .eq) : o.then r = o := by
  cases o with
  | lt => rfl
  | eq => exact absurd rfl h
  | gt => rfl

theorem ordOfInt_sub_compare (m n : Nat) : ordOfInt ((m : Int) - n) = compare m n := by
  rcases Nat.lt_trichotomy m n with h | h | h
  · rw [Nat.compare_eq_lt.mpr h]
    unfold ordOfInt
    rw [if_pos (by omega)]
  · subst h
    rw [Nat.compare_eq_eq.mpr rfl]
    unfold ordOfInt
    rw [if_neg (by omega), if_pos (by omega)]
  · rw [Nat.compare_eq_gt.mpr h]
    unfold ordOfInt
    rw [if_neg (by omega), if_neg (by omega)]

theorem lexOrd_ordOfInt : ∀ a b : Str, ordOfInt (lexCompare a b) = lexOrd a b := by
  intro a
  induction a with
  | nil =>
    intro b
    cases b with
    | nil => rfl
    | cons y ys => rfl
  | cons x xs ih =>
    intro b
    cases b with
    | nil => rfl
    | cons y ys =>
      show ordOfInt (if x.toNat < y.toNat then -1
          else if y.toNat < x.toNat then 1 else lexCompare xs ys)
        = (compare x.toNat y.toNat).then (lexOrd xs ys)
      rcases Nat.lt_trichotomy x.toNat y.toNat with h | h | h
      · rw [if_pos h, Nat.compare_eq_lt.mpr h]
        rfl
      · rw [if_neg (by omega), if_neg (by omega), Nat.compare_eq_eq.mpr h]
        exact ih ys
      · rw [if_neg (by omega), if_pos h, Nat.compare_eq_gt.mpr h]
        rfl

theorem char_toNat_inj {x y : Char} (h : x.toNat = y.toNat) : x = y := by
  apply Char.ext
  exact UInt32.ext h

theorem lexOrd_eq_iff : ∀ a b : Str, lexOrd a b = .eq ↔ a = b := by
  intro a
  induction a with
  | nil =>
    intro b
    cases b with
    | nil => simp [lexOrd]
    | cons y ys => simp [lexOrd]
  | cons x xs ih =>
    intro b
    cases b with
    | nil => simp [lexOrd]
    | cons y ys =>
      show (compare x.toNat y.toNat).then (lexOrd xs ys) = .eq ↔ _
      rcases Nat.lt_trichotomy x.toNat y.toNat with h | h | h
      · rw [Nat.compare_eq_lt.mpr h]
        constructor
        · intro he
          rw [then_of_ne_eq (by decide)] at he
          exact absurd he (by decide)
        · intro he
          cases he
          exact absurd h (lt_irrefl _)
      · have hxy : x = y := char_toNat_inj h
        subst hxy
        rw [Nat.compare_eq_eq.mpr rfl]
        show lexOrd xs ys = .eq ↔ _
        rw [ih ys]
        simp
      · rw [Nat.compare_eq_gt.mpr h]
        constructor
        · intro he
          rw [then_of_ne_eq (by decide)] at he
          exact absurd he (by decide)
        · intro he
          cases he
          exact absurd h (lt_irrefl _)

theorem isUpperFirst_eq (t : Str) : isUpperFirst t = isUpperLeading t := by
  cases t with
  | nil => rfl
  | cons c cs =>
    show (decide (65 ≤ c.toNat) && decide (c.toNat ≤ 90))
      = (decide ('A' ≤ c) && decide (c ≤ 'Z'))
    have h1 : decide (65 ≤ c.toNat) = decide ('A' ≤ c) := by
      rw [decide_eq_decide, Char.le_def]
      constructor <;> intro h <;> exact h
    have h2 : decide (c.toNat ≤ 90) = decide (c ≤ 'Z') := by
      rw [decide_eq_decide, Char.le_def]
      constructor <;> intro h <;> exact h
    rw [h1, h2]

/-- All characters of a run have the same digit/non-digit class. -/
def RunPure (t : Str) : Prop :=
  ∀ c ∈ t, ∀ d ∈ t, isDigitChar c = isDigitChar d

theorem runPure_cons_of {c : Char} {t : Str}
    (h : ∀ x ∈ t, isDigitChar x = isDigitChar c) : RunPure (c :: t) := by
  intro a ha b hb
  have hcls : ∀ x ∈ c :: t, isDigitChar x = isDigitChar c := by
    intro x hx
    rcases List.mem_cons.mp hx with rfl | hx
    · rfl
    · exact h x hx
  rw [hcls a ha, hcls b hb]

theorem tokenize_good : ∀ s : Str, ∀ t ∈ tokenize s, t ≠ [] ∧ RunPure t := by
  intro s
  induction s with
  | nil => intro t ht; cases ht
  | cons c s ih =>
    intro t ht
    rw [show tokenize (c :: s) = tokStep c (tokenize s) from rfl] at ht
    cases htk : tokenize s with
    | nil =>
      rw [htk] at ht
      rcases List.mem_singleton.mp ht with rfl
      refine ⟨by simp, runPure_cons_of ?_⟩
      intro x hx
      cases hx
    | cons t0 ts =>
      rw [htk] at ht
      have h0 := ih t0 (htk ▸ List.mem_cons_self ..)
      rcases List.exists_cons_of_ne_nil h0.1 with ⟨d, t0x, ht0⟩
      subst ht0
      by_cases hcd : isDigitChar c = isDigitChar d
      · rw [show tokStep c ((d :: t0x) :: ts) = (c :: d :: t0x) :: ts from by
          show (if (isDigitChar c == isDigitChar d) = true then _ else _) = _
          rw [if_pos (by simp [hcd])]] at ht
        rcases List.mem_cons.mp ht with rfl | hmem
        · refine ⟨by simp, runPure_cons_of ?_⟩
          intro x hx
          have := h0.2 x hx d (List.mem_cons_self ..)
          rw [this, ← hcd]
        · exact ih t (htk ▸ List.mem_cons_of_mem _ hmem)
      · rw [show tokStep c ((d :: t0x) :: ts) = [c] :: (d :: t0x) :: ts from by
          show (if (isDigitChar c == isDigitChar d) = true then _ else _) = _
          rw [if_neg (by simp [hcd])]] at ht
        rcases List.mem_cons.mp ht with rfl | hmem
        · refine ⟨by simp, runPure_cons_of ?_⟩
          intro x hx
          cases hx
        · exact ih t (htk ▸ hmem)

theorem run_facts_digit {c : Char} {rest : Str} (hp : RunPure (c :: rest))
    (hd : isDigitChar c = true) :
    parseIntOpt (c :: rest) = some (digitsToNat (c :: rest)) ∧
      isDigitRun (c :: rest) = true := by
  have hall : ∀ x ∈ c :: rest, isDigitChar x = true := by
    intro x hx
    rw [hp x hx c (List.mem_cons_self ..)]
    exact hd
  constructor
  · show (if isDigitChar c = true then
        some (digitsToNat ((c :: rest).takeWhile isDigitChar)) else none) = _
    rw [if_pos hd, List.takeWhile_eq_self_iff.mpr hall]
  · show (!(c :: rest).isEmpty && (c :: rest).all isDigitChar) = true
    rw [List.all_eq_true.mpr hall]
    rfl

theorem run_facts_nondigit {c : Char} {rest : Str} (hd : isDigitChar c = false) :
    parseIntOpt (c :: rest) = none ∧ isDigitRun (c :: rest) = false := by
  constructor
  · show (if isDigitChar c = true then
        some (digitsToNat ((c :: rest).takeWhile isDigitChar)) else none) = none
    rw [if_neg (by simp [hd])]
  · show (!(c :: rest).isEmpty && (c :: rest).all isDigitChar) = false
    rw [List.all_cons, hd]
    simp

/-- The non-numeric branch of the token loop agrees with the amended
run comparison (composed with `Ordering.then`). -/
theorem runCmpAmended_digit {A B : Str} (ha : isDigitRun A = true)
    (hb : isDigitRun B = true) :
    runCmpAmended A B = compare (digitsToNat A) (digitsToNat B) := by
  unfold runCmpAmended
  rw [ha, hb]
  rfl

theorem runCmpAmended_nondigit {A B : Str} (h : (isDigitRun A && isDigitRun B) = false) :
    runCmpAmended A B
      = (if (isUpperLeading A && !isUpperLeading B) = true then .lt
         else if (!isUpperLeading A && isUpperLeading B) = true then .gt
         else lexOrd A B) := by
  unfold runCmpAmended
  rw [h]
  rfl

theorem upper_branch_spec {A B : Str} {ta tb : List Str}
    (hrec : ordOfInt (natCompareTokens ta tb) = runsCmpWith runCmpAmended ta tb) :
    ordOfInt (if isUpperFirst A ≠ isUpperFirst B then (if isUpperFirst A then -1 else 1)
      else if A ≠ B then lexCompare A B
      else natCompareTokens ta tb)
    = ((if (isUpperLeading A && !isUpperLeading B) = true then .lt
        else if (!isUpperLeading A && isUpperLeading B) = true then .gt
        else lexOrd A B).then (runsCmpWith runCmpAmended ta tb)) := by
  rw [isUpperFirst_eq A, isUpperFirst_eq B]
  by_cases hu : isUpperLeading A = isUpperLeading B
  · rw [if_neg (fun h : isUpperLeading A ≠ isUpperLeading B => h hu)]
    have hc1 : (isUpperLeading A && !isUpperLeading B) = false := by
      rw [hu]; cases isUpperLeading B <;> rfl
    have hc2 : (!isUpperLeading A && isUpperLeading B) = false := by
      rw [hu]; cases isUpperLeading B <;> rfl
    rw [hc1, hc2]
    simp only [Bool.false_eq_true, if_false]
    by_cases hab : A = B
    · subst hab
      rw [if_neg (fun h : A ≠ A => h rfl),
        show lexOrd A A = .eq from (lexOrd_eq_iff A A).mpr rfl]
      exact hrec
    · rw [if_pos hab, lexOrd_ordOfInt,
        then_of_ne_eq (fun he => hab ((lexOrd_eq_iff A B).mp he))]
  · rw [if_pos hu]
    cases hA : isUpperLeading A with
    | true =>
      have hB : isUpperLeading B = false := by
        cases hBB : isUpperLeading B
        · rfl
        · exact absurd (hA.trans hBB.symm) hu
      rw [hB]
      rfl
    | false =>
      have hB : isUpperLeading B = true := by
        cases hBB : isUpperLeading B
        · exact absurd (hA.trans hBB.symm) hu
        · rfl
      rw [hB]
      rfl

theorem natCompareTokens_spec :
    ∀ ta tb : List Str,
      (∀ t ∈ ta, t ≠ [] ∧ RunPure t) → (∀ t ∈ tb, t ≠ [] ∧ RunPure t) →
      ordOfInt (natCompareTokens ta tb) = runsCmpWith runCmpAmended ta tb := by
  intro ta
  induction ta with
  | nil =>
    intro tb _ _
    cases tb with
    | nil => rfl
    | cons b tb =>
      have h : natCompareTokens [] (b :: tb) < 0 := by
        show (([] : List Str).length : Int) - ((b :: tb).length : Int) < 0
        simp only [List.length_nil, List.length_cons, Nat.cast_zero]
        omega
      show ordOfInt (natCompareTokens [] (b :: tb)) = .lt
      unfold ordOfInt
      rw [if_pos h]
  | cons a ta ih =>
    intro tb hta htb
    cases tb with
    | nil =>
      have h : 0 < natCompareTokens (a :: ta) [] := by
        show (0 : Int) < ((a :: ta).length : Int) - (([] : List Str).length : Int)
        simp only [List.length_cons, List.length_nil, Nat.cast_zero, sub_zero]
        omega
      show ordOfInt (natCompareTokens (a :: ta) []) = .gt
      unfold ordOfInt
      rw [if_neg (by omega), if_neg (by omega)]
    | cons b tb =>
      obtain ⟨hane, hap⟩ := hta a (List.mem_cons_self ..)
      obtain ⟨hbne, hbp⟩ := htb b (List.mem_cons_self ..)
      have hrec := ih tb (fun t ht => hta t (List.mem_cons_of_mem a ht))
        (fun t ht => htb t (List.mem_cons_of_mem b ht))
      rcases List.exists_cons_of_ne_nil hane with ⟨ca, resta, rfl⟩
      rcases List.exists_cons_of_ne_nil hbne with ⟨cb, restb, rfl⟩
      show ordOfInt (match parseIntOpt (ca :: resta), parseIntOpt (cb :: restb) with
          | some na, some nb =>
            if na ≠ nb then (na : Int) - (nb : Int) else natCompareTokens ta tb
          | _, _ =>
            if isUpperFirst (ca :: resta) ≠ isUpperFirst (cb :: restb) then
              (if isUpperFirst (ca :: resta) then -1 else 1)
            else if (ca :: resta) ≠ (cb :: restb) then
              lexCompare (ca :: resta) (cb :: restb)
            else natCompareTokens ta tb)
        = (runCmpAmended (ca :: resta) (cb :: restb)).then
            (runsCmpWith runCmpAmended ta tb)
      cases hda : isDigitChar ca with
      | true =>
        cases hdb : isDigitChar cb with
        | true =>
          obtain ⟨hpa, hra⟩ := run_facts_digit hap hda
          obtain ⟨hpb, hrb⟩ := run_facts_digit hbp hdb
          rw [hpa, hpb]
          dsimp only
          rw [runCmpAmended_digit hra hrb]
          by_cases hnn : digitsToNat (ca :: resta) = digitsToNat (cb :: restb)
          · rw [if_neg (fun h => h hnn), Nat.compare_eq_eq.mpr hnn]
            exact hrec
          · rw [if_pos hnn, ordOfInt_sub_compare,
              then_of_ne_eq (fun he => hnn (Nat.compare_eq_eq.mp he))]
        | false =>
          obtain ⟨hpa, hra⟩ := run_facts_digit hap hda
          obtain ⟨hpb, hrb⟩ := @run_facts_nondigit cb restb hdb
          rw [hpa, hpb]
          dsimp only
          rw [runCmpAmended_nondigit (by rw [hra, hrb]; rfl)]
          exact upper_branch_spec hrec
      | false =>
        obtain ⟨hpa, hra⟩ := @run_facts_nondigit ca resta hda
        cases hdb : isDigitChar cb with
        | true =>
          obtain ⟨hpb, hrb⟩ := run_facts_digit hbp hdb
          rw [hpa, hpb]
          dsimp only
          rw [runCmpAmended_nondigit (by rw [hra]; rfl)]
          exact upper_branch_spec hrec
        | false =>
          obtain ⟨hpb, hrb⟩ := @run_facts_nondigit cb restb hdb
          rw [hpa, hpb]
          dsimp only
          rw [runCmpAmended_nondigit (by rw [hra]; rfl)]
          exact upper_branch_spec hrec

/-- C6 counterexample: the claim reads the case rule as
"uppercase-letter-leading before lowercase-leading, otherwise ordinary
lexical order".  On ids `"A"` and `"-"` the run `"-"` is not
lowercase-leading, so the claim's rule falls through to lexical order
and predicts `"-"` first (`'-' < 'A'`), but the code returns `-1`
(`"A"` first), because it privileges uppercase over any
non-uppercase-leading run. -/
theorem naturalSort_lit_counterexample :
    naturalSort "A".toList "-".toList = -1 ∧
    specNaturalSortLit "A".toList "-".toList = .gt ∧
    isUpperLeading "A".toList = true ∧
    isLowerLeading "-".toList = false ∧
    lexOrd "A".toList "-".toList = .gt := by decide

/-- C6 (amended): `naturalSort` splits each id into maximal digit /
non-digit runs and compares runs pairwise — digit runs numerically,
non-digit runs with uppercase-leading runs before runs not leading with
an uppercase letter and otherwise ordinary lexical order — falling back
to lexical comparison when either id is untokenizable (empty), with a
strict token-sequence prefix sorting first; and `"AA-1" < "AA-2" <
"AA-10"`. -/
theorem naturalSort_spec_amended :
    (∀ a b : Str, ordOfInt (naturalSort a b) = specNaturalSort a b) ∧
    naturalSort "AA-1".toList "AA-2".toList < 0 ∧
    naturalSort "AA-2".toList "AA-10".toList < 0 := by
  refine ⟨?_, by decide, by decide⟩
  intro a b
  unfold naturalSort specNaturalSort matchTokens
  by_cases ha : a = []
  · rw [if_pos (Or.inl ha : a = [] ∨ b = []), if_pos ha]
    dsimp only
    exact lexOrd_ordOfInt a b
  · by_cases hb : b = []
    · rw [if_pos (Or.inr hb : a = [] ∨ b = []), if_neg ha, if_pos hb]
      dsimp only
      exact lexOrd_ordOfInt a b
    · rw [if_neg (fun h : a = [] ∨ b = [] => h.elim ha hb), if_neg ha, if_neg hb]
      dsimp only
      exact natCompareTokens_spec (tokenize a) (tokenize b)
        (tokenize_good a) (tokenize_good b)

end DeckMaker
